import Mathlib

/-!
# Verification of the job-board-scraper core against its specification

Shallow embedding, in Lean 4, of the core data model and operations of the
job-board scraper: the work distributor's URL chunking, the harvest spider's
failure classifier and pagination loop, the discovery engine's upsert and
recursive traversal, the pre-crawl URL verification step, the hashids-based
record-id generation, and the top-level harvest run's exit behaviour.

Each definition is translated from the corresponding Python source
(file and function named in its doc comment).  Machine integers are modelled
as `Nat` (Python integers are unbounded, so no wrap-around is needed);
database tables are modelled as in-memory lists keyed by unique URL; network
effects are modelled as explicit inputs (a page's parsed content, a fetch
outcome) passed to the embedded control flow.
-/

/-! ## Work distributor: URL chunking

Embeds `get_url_chunks` from
`job_board_scraper/job_board_scraper/utils/scraper_util.py`.
The input is the list of rows returned by the database query (tuples whose
first component is the URL, modelled as `String × α`), plus the chunk size.
-/

/-- One iteration of the `for i, url in enumerate(careers_page_urls)` loop of
`get_url_chunks`: append `url[0]` to the current chunk, and flush the chunk
when `i % chunk_size == chunk_size - 1`. -/
def chunksFoldStep {α : Type} (cs : Nat) (acc : List (List String) × List String)
    (p : Nat × (String × α)) : List (List String) × List String :=
  let single2 := acc.2 ++ [p.2.1]
  if p.1 % cs = cs - 1 then (acc.1 ++ [single2], []) else (acc.1, single2)

/-- `get_url_chunks(careers_page_urls, chunk_size)` from `scraper_util.py`:
returns `[]` on empty input, clamps the chunk size to at least 1, splits the
first components of the rows into chunks, and appends a final short chunk if
a non-empty remainder is left over. -/
def get_url_chunks {α : Type} (rows : List (String × α)) (chunkSize : Nat) :
    List (List String) :=
  if rows.isEmpty then []
  else
    let cs := max 1 chunkSize
    let r := rows.enum.foldl (chunksFoldStep cs) ([], [])
    if 0 < r.2.length then r.1 ++ [r.2] else r.1

theorem mod_succ_of_eq_pred {cs i : Nat} (hcs : 1 ≤ cs) (h : i % cs = cs - 1) :
    (i + 1) % cs = 0 := by
  match cs, hcs with
  | 1, _ => simp [Nat.mod_one]
  | (cs + 2), _ =>
    rw [Nat.add_mod, h, Nat.one_mod]
    simp

theorem mod_succ_of_ne_pred {cs i : Nat} (hcs : 1 ≤ cs) (h : i % cs ≠ cs - 1) :
    (i + 1) % cs = i % cs + 1 := by
  match cs, hcs with
  | 1, _ => exact absurd (Nat.mod_one i) h
  | (cs + 2), _ =>
    have hlt : i % (cs + 2) < cs + 2 := Nat.mod_lt _ (by omega)
    rw [Nat.add_mod, Nat.one_mod, Nat.mod_eq_of_lt (by omega)]

/-- Invariant of the accumulating fold inside `get_url_chunks`: all flushed
chunks have length exactly `cs`, the pending chunk's length tracks the index
modulo `cs`, and the concatenation of everything accumulated so far is the
list of first components processed so far. -/
theorem chunksFold_invariant {α : Type} (cs : Nat) (hcs : 1 ≤ cs) :
    ∀ (l : List (String × α)) (i0 : Nat) (chunks : List (List String))
      (single : List String),
      single.length = i0 % cs →
      (∀ c ∈ chunks, c.length = cs) →
      (∀ c ∈ ((l.enumFrom i0).foldl (chunksFoldStep cs) (chunks, single)).1,
          c.length = cs)
      ∧ ((l.enumFrom i0).foldl (chunksFoldStep cs) (chunks, single)).2.length
          = (i0 + l.length) % cs
      ∧ ((l.enumFrom i0).foldl (chunksFoldStep cs) (chunks, single)).1.join
          ++ ((l.enumFrom i0).foldl (chunksFoldStep cs) (chunks, single)).2
          = chunks.join ++ single ++ l.map Prod.fst := by
  intro l
  induction l with
  | nil =>
    intro i0 chunks single hs hc
    rw [List.enumFrom_nil, List.foldl_nil]
    refine ⟨hc, ?_, by simp⟩
    simpa using hs
  | cons hd tl ih =>
    intro i0 chunks single hs hc
    have hshift : i0 + 1 + tl.length = i0 + (hd :: tl).length := by
      simp only [List.length_cons]
      omega
    rw [List.enumFrom_cons, List.foldl_cons]
    by_cases hmod : i0 % cs = cs - 1
    · have hstep : chunksFoldStep cs (chunks, single) (i0, hd)
          = (chunks ++ [single ++ [hd.1]], []) := by
        simp [chunksFoldStep, hmod]
      rw [hstep]
      have hlen2 : (single ++ [hd.1]).length = cs := by
        simp only [List.length_append, List.length_singleton, hs, hmod]
        omega
      have hc2 : ∀ c ∈ chunks ++ [single ++ [hd.1]], c.length = cs := by
        intro c hcmem
        rcases List.mem_append.mp hcmem with h1 | h1
        · exact hc c h1
        · simp only [List.mem_singleton] at h1
          rw [h1, hlen2]
      have hre := ih (i0 + 1) (chunks ++ [single ++ [hd.1]]) []
        (by simp [mod_succ_of_eq_pred hcs hmod]) hc2
      refine ⟨hre.1, ?_, ?_⟩
      · rw [hre.2.1]
        exact congrArg (fun t => t % cs) hshift
      · rw [hre.2.2]
        simp
    · have hstep : chunksFoldStep cs (chunks, single) (i0, hd)
          = (chunks, single ++ [hd.1]) := by
        simp [chunksFoldStep, hmod]
      rw [hstep]
      have hre := ih (i0 + 1) chunks (single ++ [hd.1])
        (by simp [hs, mod_succ_of_ne_pred hcs hmod]) hc
      refine ⟨hre.1, ?_, ?_⟩
      · rw [hre.2.1]
        exact congrArg (fun t => t % cs) hshift
      · rw [hre.2.2]
        simp

/-- Claim C1: for every input list of URL tuples and every chunk size
`n ≥ 1`, `get_url_chunks` returns a partition: the concatenation of the
chunks is the list of first components in input order, every chunk has
length at most `n`, every chunk except possibly the last has length exactly
`n`, and the empty input yields the empty list of chunks. -/
theorem get_url_chunks_partition {α : Type} (rows : List (String × α))
    (n : Nat) (hn : 1 ≤ n) :
    (get_url_chunks rows n).join = rows.map Prod.fst
    ∧ (∀ c ∈ get_url_chunks rows n, c.length ≤ n)
    ∧ (∀ c ∈ (get_url_chunks rows n).dropLast, c.length = n)
    ∧ get_url_chunks ([] : List (String × α)) n = [] := by
  have hmax : max 1 n = n := by omega
  by_cases hrows : rows = []
  · subst hrows
    simp [get_url_chunks]
  · have hinv := chunksFold_invariant (α := α) n hn rows 0 [] []
      (by simp) (by simp)
    set r := (rows.enumFrom 0).foldl (chunksFoldStep n) ([], []) with hr
    have hjoin : r.1.join ++ r.2 = rows.map Prod.fst := by
      have := hinv.2.2
      simpa using this
    have hrem : r.2.length = rows.length % n := by
      have := hinv.2.1
      simpa using this
    have hfull : ∀ c ∈ r.1, c.length = n := hinv.1
    have hun : get_url_chunks rows n
        = if 0 < r.2.length then r.1 ++ [r.2] else r.1 := by
      simp only [get_url_chunks, List.isEmpty_iff, hrows, if_false, hmax]
      rfl
    refine ⟨?_, ?_, ?_, by simp [get_url_chunks]⟩
    · rw [hun]
      by_cases h2 : 0 < r.2.length
      · rw [if_pos h2]
        simpa using hjoin
      · rw [if_neg h2]
        have : r.2 = [] := List.length_eq_zero.mp (by omega)
        rw [this, List.append_nil] at hjoin
        exact hjoin
    · rw [hun]
      intro c hcmem
      by_cases h2 : 0 < r.2.length
      · rw [if_pos h2] at hcmem
        rcases List.mem_append.mp hcmem with h1 | h1
        · exact Nat.le_of_eq (hfull c h1)
        · simp at h1
          subst h1
          rw [hrem]
          exact Nat.le_of_lt (Nat.mod_lt _ (by omega))
      · rw [if_neg h2] at hcmem
        exact Nat.le_of_eq (hfull c hcmem)
    · rw [hun]
      intro c hcmem
      by_cases h2 : 0 < r.2.length
      · rw [if_pos h2, List.dropLast_concat] at hcmem
        exact hfull c hcmem
      · rw [if_neg h2] at hcmem
        exact hfull c (List.Sublist.subset (List.dropLast_sublist r.1) hcmem)

/-- Concrete witness for Claim C1 at a three-row input with chunk size 2. -/
theorem get_url_chunks_partition_witness :
    (1 : Nat) ≤ 2
    ∧ ((get_url_chunks [("a", (0 : Nat)), ("b", 1), ("c", 2)] 2).join
          = [("a", (0 : Nat)), ("b", 1), ("c", 2)].map Prod.fst
        ∧ (∀ c ∈ get_url_chunks [("a", (0 : Nat)), ("b", 1), ("c", 2)] 2,
            c.length ≤ 2)
        ∧ (∀ c ∈ (get_url_chunks [("a", (0 : Nat)), ("b", 1), ("c", 2)] 2).dropLast,
            c.length = 2)
        ∧ get_url_chunks ([] : List (String × Nat)) 2 = []) :=
  ⟨by decide, get_url_chunks_partition [("a", (0 : Nat)), ("b", 1), ("c", 2)] 2
    (by decide)⟩

/-! ## Failure classifier

Embeds `errback_httpbin` and `mark_url_as_disabled` from
`job_board_scraper/job_board_scraper/spiders/greenhouse_jobs_outline_spider.py`.
A failed fetch is one of: an `HttpError` carrying the response status, one of
the three transient network errors the code checks for (`DNSLookupError`,
`TimeoutError`, `TCPTimedOutError`), or any other failure (which the code
only logs).  The spider state holds the `retry_counts` dictionary and the
set of URLs whose `company_urls` row has been updated to `is_enabled=false`.
-/

/-- The failure categories distinguished by `errback_httpbin`. -/
inductive FetchFailure : Type
  | httpError (status : Nat)
  | dnsLookupError
  | timeoutError
  | tcpTimedOutError
  | otherFailure
deriving DecidableEq

/-- Insert into a set modelled as a duplicate-free list (Python `set.add`). -/
def setAdd (l : List String) (x : String) : List String :=
  if x ∈ l then l else l ++ [x]

/-- Spider-side error-handling state: the per-run `retry_counts` dictionary
(keyed by URL) and the URLs disabled in the `company_urls` table. -/
structure SpiderErrState : Type where
  retryCounts : List (String × Nat)
  disabledUrls : List String
deriving DecidableEq

/-- Dictionary lookup for `retry_counts` (Python dict membership/read). -/
def lookupCount : List (String × Nat) → String → Option Nat
  | [], _ => none
  | p :: tl, u => if p.1 = u then some p.2 else lookupCount tl u

/-- Dictionary write `retry_counts[u] = n` (Python dict assignment). -/
def writeCount : List (String × Nat) → String → Nat → List (String × Nat)
  | [], u, n => [(u, n)]
  | p :: tl, u, n => if p.1 = u then (u, n) :: tl else p :: writeCount tl u n

/-- `mark_url_as_disabled`: the idempotent
`UPDATE company_urls SET is_enabled=false WHERE url=%s`. -/
def mark_url_as_disabled (st : SpiderErrState) (url : String) : SpiderErrState :=
  { st with disabledUrls := setAdd st.disabledUrls url }

/-- `self.max_retries` set in the spider constructor. -/
def maxRetries : Nat := 3

/-- `errback_httpbin`: a 404 `HttpError` disables the URL immediately; any
other `HttpError` is only logged; a transient error increments
`retry_counts[self.url]` and disables the URL once the counter reaches
`self.max_retries`; every other failure is only logged. -/
def errback_httpbin (url : String) (st : SpiderErrState) (f : FetchFailure) :
    SpiderErrState :=
  match f with
  | .httpError status =>
      if status = 404 then mark_url_as_disabled st url else st
  | .dnsLookupError | .timeoutError | .tcpTimedOutError =>
      let newCount :=
        match lookupCount st.retryCounts url with
        | none => 1
        | some c => c + 1
      let st2 := { st with retryCounts := writeCount st.retryCounts url newCount }
      if maxRetries ≤ newCount then mark_url_as_disabled st2 url else st2
  | .otherFailure => st

/-- The failures `errback_httpbin` treats as transient. -/
def IsTransient (f : FetchFailure) : Prop :=
  f = .dnsLookupError ∨ f = .timeoutError ∨ f = .tcpTimedOutError

instance (f : FetchFailure) : Decidable (IsTransient f) := by
  unfold IsTransient
  infer_instance

/-- Fresh spider state: `retry_counts = {}` and no URL disabled yet. -/
def initErrState : SpiderErrState := ⟨[], []⟩

theorem mem_setAdd (l : List String) (x y : String) :
    y ∈ setAdd l x ↔ y ∈ l ∨ y = x := by
  by_cases h : x ∈ l
  · simp only [setAdd, if_pos h]
    constructor
    · exact Or.inl
    · rintro (h1 | rfl)
      · exact h1
      · exact h
  · simp [setAdd, if_neg h]

theorem lookupCount_writeCount (d : List (String × Nat)) (u : String) (n : Nat) :
    lookupCount (writeCount d u n) u = some n := by
  induction d with
  | nil => simp [writeCount, lookupCount]
  | cons p tl ih =>
    by_cases h : p.1 = u
    · simp [writeCount, lookupCount, h]
    · simp [writeCount, lookupCount, h, ih]

/-- Effect of one transient failure: the counter for the URL becomes its old
value plus one, and the URL gets disabled exactly when that new value
reaches `maxRetries`. -/
theorem errback_transient_step (url : String) (st : SpiderErrState)
    (f : FetchFailure) (hf : IsTransient f) :
    lookupCount (errback_httpbin url st f).retryCounts url
      = some ((lookupCount st.retryCounts url).getD 0 + 1)
    ∧ (errback_httpbin url st f).disabledUrls
        = (if maxRetries ≤ (lookupCount st.retryCounts url).getD 0 + 1
           then setAdd st.disabledUrls url else st.disabledUrls) := by
  have hcount : (match lookupCount st.retryCounts url with
      | none => 1
      | some c => c + 1) = (lookupCount st.retryCounts url).getD 0 + 1 := by
    cases lookupCount st.retryCounts url <;> rfl
  rcases hf with rfl | rfl | rfl <;>
    · rw [errback_httpbin]
      rw [hcount]
      by_cases hge : maxRetries ≤ (lookupCount st.retryCounts url).getD 0 + 1
      · rw [if_pos hge, if_pos hge]
        exact ⟨lookupCount_writeCount _ _ _, rfl⟩
      · rw [if_neg hge, if_neg hge]
        exact ⟨lookupCount_writeCount _ _ _, rfl⟩

/-- Folding a run of transient failures over the spider state: the URL ends
up disabled exactly when the failure count reaches `maxRetries = 3`. -/
theorem errback_transient_fold (url : String) :
    ∀ (fs : List FetchFailure) (st : SpiderErrState) (k : Nat),
      (∀ f ∈ fs, IsTransient f) →
      (lookupCount st.retryCounts url).getD 0 = k →
      (url ∈ st.disabledUrls ↔ 3 ≤ k) →
      (url ∈ (fs.foldl (errback_httpbin url) st).disabledUrls
        ↔ 3 ≤ k + fs.length) := by
  intro fs
  induction fs with
  | nil =>
    intro st k _ _ hmem
    simpa using hmem
  | cons f fs ih =>
    intro st k hall hk hmem
    have hf : IsTransient f := hall f (List.mem_cons_self f fs)
    have hstep := errback_transient_step url st f hf
    rw [List.foldl_cons]
    have hk2 : (lookupCount (errback_httpbin url st f).retryCounts url).getD 0
        = k + 1 := by
      rw [hstep.1, hk]
      rfl
    have hmem2 : url ∈ (errback_httpbin url st f).disabledUrls ↔ 3 ≤ k + 1 := by
      rw [hstep.2, hk]
      by_cases hge : maxRetries ≤ k + 1
      · rw [if_pos hge, mem_setAdd]
        have : (3 : Nat) ≤ k + 1 := hge
        simp [this]
      · rw [if_neg hge]
        rw [hmem]
        have h3 : ¬ (3 : Nat) ≤ k + 1 := hge
        constructor
        · intro h
          omega
        · intro h
          omega
    have := ih (errback_httpbin url st f) (k + 1)
      (fun g hg => hall g (List.mem_cons_of_mem f hg)) hk2 hmem2
    rw [this]
    constructor
    · intro h
      simp only [List.length_cons]
      omega
    · intro h
      simp only [List.length_cons] at h
      omega

/-- Claim C2: the failure classifier disables the URL after a single
HTTP 404; leaves the state unchanged on any other HTTP error; and, over a
run of transient failures starting from a fresh spider state, disables the
URL exactly when the per-URL counter reaches 3 (so one or two transient
failures leave it enabled). -/
theorem errback_httpbin_policy (url : String) (st : SpiderErrState) (s : Nat)
    (hs : s ≠ 404) (fs : List FetchFailure)
    (hfs : ∀ f ∈ fs, IsTransient f) :
    url ∈ (errback_httpbin url st (.httpError 404)).disabledUrls
    ∧ errback_httpbin url st (.httpError s) = st
    ∧ (url ∈ (fs.foldl (errback_httpbin url) initErrState).disabledUrls
        ↔ 3 ≤ fs.length) := by
  refine ⟨?_, ?_, ?_⟩
  · show url ∈ (if (404 : Nat) = 404 then mark_url_as_disabled st url else st).disabledUrls
    rw [if_pos rfl]
    exact (mem_setAdd _ _ _).mpr (Or.inr rfl)
  · show (if s = 404 then mark_url_as_disabled st url else st) = st
    rw [if_neg hs]
  · have := errback_transient_fold url fs initErrState 0 hfs rfl (by simp [initErrState])
    simpa using this

/-- Concrete witness for Claim C2: a 500 response changes nothing, and three
transient failures (DNS lookup, timeout, TCP timeout) disable the URL. -/
theorem errback_httpbin_policy_witness :
    ((500 : Nat) ≠ 404)
    ∧ (∀ f ∈ [FetchFailure.dnsLookupError, FetchFailure.timeoutError,
        FetchFailure.tcpTimedOutError], IsTransient f)
    ∧ ("https://boards.greenhouse.io/acme"
          ∈ (errback_httpbin "https://boards.greenhouse.io/acme" initErrState
              (.httpError 404)).disabledUrls
        ∧ errback_httpbin "https://boards.greenhouse.io/acme" initErrState
            (.httpError 500) = initErrState
        ∧ ("https://boards.greenhouse.io/acme"
              ∈ ([FetchFailure.dnsLookupError, FetchFailure.timeoutError,
                  FetchFailure.tcpTimedOutError].foldl
                  (errback_httpbin "https://boards.greenhouse.io/acme")
                  initErrState).disabledUrls
            ↔ 3 ≤ [FetchFailure.dnsLookupError, FetchFailure.timeoutError,
                FetchFailure.tcpTimedOutError].length)) :=
  ⟨by decide, by decide,
    errback_httpbin_policy "https://boards.greenhouse.io/acme" initErrState 500
      (by decide)
      [FetchFailure.dnsLookupError, FetchFailure.timeoutError,
        FetchFailure.tcpTimedOutError]
      (by decide)⟩

/-! ## Discovery engine: store upsert

Embeds `CompanyURLFinder.add_company` from
`job_board_scraper/find_companies.py` (the variant with
`ON CONFLICT (url) DO NOTHING RETURNING id`).  The `company_urls` table is
modelled as a list of `(url, company_name)` rows with unique URLs; the
`RETURNING id` row exists exactly when the insert actually happened, which
is what the Python code turns into its `True`/`False` result.  The finder
also tracks the run-local dedup sets `checked_urls` and `checked_companies`.
-/

/-- Run-local state of a `CompanyURLFinder`: the two in-memory dedup sets
and the `company_urls` table rows `(url, company_name)`. -/
structure FinderState : Type where
  checkedUrls : List String
  checkedCompanies : List String
  dbRows : List (String × String)
deriving DecidableEq

/-- `add_company(company_name, job_board_url, job_board_type)`: insert-if-absent
into `company_urls` keyed by the unique `url` column; on conflict do nothing
and report `False`; on a genuine insert also record the company and URL in
the dedup sets and report `True`.  (`job_board_type` is accepted and unused,
as in the source.) -/
def add_company (st : FinderState) (companyName url jobBoardType : String) :
    FinderState × Bool :=
  if url ∈ st.dbRows.map Prod.fst then (st, false)
  else
    ({ st with
        dbRows := st.dbRows ++ [(url, companyName)]
        checkedCompanies := setAdd st.checkedCompanies companyName.toLower
        checkedUrls := setAdd st.checkedUrls url }, true)

/-- Claim C3: the upsert is insert-if-absent.  The first `add_company` call
for a URL reports `true` and stores the row; any later call with the same
URL (modelled by any state whose table already contains the URL, covering
the same and later runs) reports `false` and leaves every stored row —
in particular the URL's stored company name — unchanged. -/
theorem add_company_insert_if_absent (st st2 : FinderState)
    (name jobBoardType name2 jobBoardType2 url : String)
    (habsent : url ∉ st.dbRows.map Prod.fst)
    (hpresent : url ∈ st2.dbRows.map Prod.fst) :
    (add_company st name url jobBoardType).2 = true
    ∧ url ∈ (add_company st name url jobBoardType).1.dbRows.map Prod.fst
    ∧ (add_company st2 name2 url jobBoardType2).2 = false
    ∧ (add_company st2 name2 url jobBoardType2).1.dbRows = st2.dbRows := by
  refine ⟨?_, ?_, ?_, ?_⟩
  · rw [add_company, if_neg habsent]
  · rw [add_company, if_neg habsent]
    simp
  · rw [add_company, if_pos hpresent]
  · rw [add_company, if_pos hpresent]

/-- Concrete witness for Claim C3: inserting a URL into an empty store
reports `true`; re-inserting it into the resulting store reports `false`
and changes nothing. -/
theorem add_company_insert_if_absent_witness :
    ("https://jobs.lever.co/acme"
        ∉ (FinderState.mk [] [] []).dbRows.map Prod.fst)
    ∧ ("https://jobs.lever.co/acme"
        ∈ (FinderState.mk [] [] [("https://jobs.lever.co/acme", "Acme")]).dbRows.map
          Prod.fst)
    ∧ ((add_company (FinderState.mk [] [] []) "Acme"
          "https://jobs.lever.co/acme" "lever").2 = true
      ∧ "https://jobs.lever.co/acme"
          ∈ (add_company (FinderState.mk [] [] []) "Acme"
              "https://jobs.lever.co/acme" "lever").1.dbRows.map Prod.fst
      ∧ (add_company (FinderState.mk [] [] [("https://jobs.lever.co/acme", "Acme")])
          "Acme Corp" "https://jobs.lever.co/acme" "lever").2 = false
      ∧ (add_company (FinderState.mk [] [] [("https://jobs.lever.co/acme", "Acme")])
          "Acme Corp" "https://jobs.lever.co/acme" "lever").1.dbRows
          = (FinderState.mk [] [] [("https://jobs.lever.co/acme", "Acme")]).dbRows) :=
  ⟨by decide, by decide,
    add_company_insert_if_absent (FinderState.mk [] [] [])
      (FinderState.mk [] [] [("https://jobs.lever.co/acme", "Acme")])
      "Acme" "lever" "Acme Corp" "lever" "https://jobs.lever.co/acme"
      (by decide) (by decide)⟩

/-! ## Harvest spider: new-format pagination loop

Embeds the `job-boards` branch of `GreenhouseJobsOutlineSpider.parse` /
`GreenhouseJobDepartmentsSpider.parse`: page `n` is parsed into its
department/job-post entries, all entries are emitted, and —
`if len(job_posts) != 0` — `page_number` is incremented and
`?page=<n+1>` is fetched with the same callback; an empty page ends the
crawl.  The sequence of fetched-page contents is the input: `pages` lists
the entries of page 1, page 2, …, and pages beyond the list are empty (a
real board has finitely many populated pages). -/

/-- The pagination loop.  Returns the entries emitted over the whole crawl
(in page order) and the number of pages fetched: the page that comes back
empty is the last fetch. -/
def parsePagesLoop {α : Type} : List (List α) → List α × Nat
  | [] => ([], 1)
  | posts :: rest =>
    if posts.length ≠ 0 then
      let r := parsePagesLoop rest
      (posts ++ r.1, r.2 + 1)
    else ([], 1)

theorem parsePagesLoop_fetch_pos {α : Type} (pages : List (List α)) :
    1 ≤ (parsePagesLoop pages).2 := by
  cases pages with
  | nil => simp [parsePagesLoop]
  | cons p rest =>
    rw [parsePagesLoop]
    by_cases h : p.length ≠ 0
    · rw [if_pos h]
      simp
    · rw [if_neg h]

/-- Claim C4: the new-format pagination fetches the next page exactly when
the current page yielded at least one entry.  Concretely: the emitted
records are the concatenation of the maximal prefix of non-empty pages and
the fetch count is that prefix's length plus the one terminal empty fetch;
page `k+2` is fetched iff page `k+1` was fetched and page `k+1` was
non-empty; and in the two-page scenario (page 1 non-empty, page 2 empty)
the crawl stops after fetching page 2 and emits exactly the page-1 records.
-/
theorem parsePagesLoop_pagination {α : Type} (pages : List (List α))
    (k : Nat) (p1 : List α) (hp1 : p1 ≠ []) :
    parsePagesLoop pages
      = ((pages.takeWhile (fun p => ¬ p.length = 0)).join,
         (pages.takeWhile (fun p => ¬ p.length = 0)).length + 1)
    ∧ (k + 2 ≤ (parsePagesLoop pages).2
        ↔ k + 1 ≤ (parsePagesLoop pages).2 ∧ pages.getD k [] ≠ [])
    ∧ parsePagesLoop [p1, []] = (p1, 2) := by
  refine ⟨?_, ?_, ?_⟩
  · induction pages with
    | nil => simp [parsePagesLoop, List.takeWhile]
    | cons p rest ih =>
      rw [parsePagesLoop]
      by_cases h : p.length ≠ 0
      · rw [if_pos h, ih]
        rw [List.takeWhile_cons_of_pos (by simpa using h)]
        simp
      · rw [if_neg h]
        rw [List.takeWhile_cons_of_neg (by simpa using h)]
        simp
  · induction pages generalizing k with
    | nil =>
      simp [parsePagesLoop]
    | cons p rest ih =>
      rw [parsePagesLoop]
      by_cases h : p.length ≠ 0
      · rw [if_pos h]
        cases k with
        | zero =>
          have := parsePagesLoop_fetch_pos rest
          simp only [List.getD_cons_zero]
          constructor
          · intro _
            exact ⟨by omega, by simpa using h⟩
          · intro _
            omega
        | succ j =>
          have hj := ih j
          simp only [List.getD_cons_succ]
          constructor
          · intro hle
            have : j + 2 ≤ (parsePagesLoop rest).2 := by omega
            have := hj.mp this
            exact ⟨by omega, this.2⟩
          · intro ⟨h1, h2⟩
            by_cases hcase : j + 2 ≤ (parsePagesLoop rest).2
            · omega
            · have hb : j + 1 ≤ (parsePagesLoop rest).2 ∧ rest.getD j [] ≠ []
                  → j + 2 ≤ (parsePagesLoop rest).2 := hj.mpr
              by_cases h1' : j + 1 ≤ (parsePagesLoop rest).2
              · exact absurd (hb ⟨h1', h2⟩) hcase
              · have hpos := parsePagesLoop_fetch_pos rest
                have hj1 : j = 0 → False := by
                  intro hj0
                  rw [hj0] at h1'
                  omega
                omega
      · rw [if_neg h]
        push_neg at h
        have hpnil : p = [] := List.length_eq_zero.mp h
        cases k with
        | zero => simp [hpnil]
        | succ j => simp
  · rw [parsePagesLoop, if_pos (by simpa using hp1)]
    simp [parsePagesLoop]

/-- Concrete witness for Claim C4: a board whose page 1 holds one entry and
whose page 2 is empty. -/
theorem parsePagesLoop_pagination_witness :
    (([5] : List Nat) ≠ [])
    ∧ (parsePagesLoop [[10], ([] : List Nat)]
          = (([[10], ([] : List Nat)].takeWhile (fun p => ¬ p.length = 0)).join,
             ([[10], ([] : List Nat)].takeWhile (fun p => ¬ p.length = 0)).length + 1)
        ∧ (0 + 2 ≤ (parsePagesLoop [[10], ([] : List Nat)]).2
            ↔ 0 + 1 ≤ (parsePagesLoop [[10], ([] : List Nat)]).2
              ∧ [[10], ([] : List Nat)].getD 0 [] ≠ [])
        ∧ parsePagesLoop [[5], ([] : List Nat)] = ([5], 2)) :=
  ⟨by decide, parsePagesLoop_pagination [[10], ([] : List Nat)] 0 [5] (by decide)⟩

/-! ## Discovery engine: recursive link-following

Embeds `CompanyURLFinder.recursive_discovery` from
`job_board_scraper/find_companies.py`.  The link graph is the input: for
each URL, `pages` lists the canonical job-board links (with the company
name derived from the slug) that scanning that URL's page produces — i.e.
the result of the `job_related_links` filtering, relative-href resolution,
board-domain filtering and slug extraction.  A URL absent from `pages`
models a failed fetch or a page without matching links (both contribute no
links).  The loop itself — FIFO queue of `(url, depth)` pairs, the
`depth >= max_depth` skip, the `checked_urls` skip, marking the URL checked
before fetching, upserting each discovered link and enqueueing it at
`depth + 1` when newly inserted and `depth + 1 < max_depth` — is translated
directly. -/

/-- State threaded through one `recursive_discovery` run: the finder state,
the trace of URLs actually fetched (in order), and `companies_found`. -/
structure DiscState : Type where
  finder : FinderState
  fetched : List String
  count : Nat
deriving DecidableEq

/-- The links discovered on a URL's page (empty when the URL is not in the
graph). -/
def discLookup (pages : List (String × List (String × String)))
    (url : String) : List (String × String) :=
  ((pages.find? (fun p => p.1 = url)).map Prod.snd).getD []

/-- Upper bound on how many links any single page of the graph yields. -/
def maxBranch (pages : List (String × List (String × String))) : Nat :=
  pages.foldr (fun p m => max p.2.length m) 0

/-- The `for link in potential_company_links` body: upsert each discovered
link; on a genuine insert bump `companies_found` and remember the URL for
re-enqueueing (at `depth + 1`) when `depth + 1 < max_depth`.  Returns the
updated finder state, the URLs to enqueue (in discovery order) and the
updated count. -/
def processLinks (maxDepth depth : Nat) :
    FinderState → Nat → List (String × String) → FinderState × List String × Nat
  | st, cnt, [] => (st, [], cnt)
  | st, cnt, (url, name) :: rest =>
    let r := add_company st name url "discovered"
    if r.2 then
      let r2 := processLinks maxDepth depth r.1 (cnt + 1) rest
      if depth + 1 < maxDepth then (r2.1, url :: r2.2.1, r2.2.2) else r2
    else processLinks maxDepth depth r.1 cnt rest

/-- Weight of one frontier entry, used as the traversal's termination
measure: exponential in the remaining depth budget. -/
def entryWeight (b m : Nat) (e : String × Nat) : Nat :=
  (b + 1) ^ (m - e.2)

/-- Total weight of the frontier queue. -/
def queueWeight (b m : Nat) (q : List (String × Nat)) : Nat :=
  (q.map (entryWeight b m)).sum

theorem queueWeight_append (b m : Nat) (q1 q2 : List (String × Nat)) :
    queueWeight b m (q1 ++ q2) = queueWeight b m q1 + queueWeight b m q2 := by
  simp [queueWeight]

theorem queueWeight_map_const_depth (b m d : Nat) (us : List String) :
    queueWeight b m (us.map (fun u => (u, d)))
      = us.length * (b + 1) ^ (m - d) := by
  induction us with
  | nil => simp [queueWeight]
  | cons u us ih =>
    simp only [List.map_cons, queueWeight, List.sum_cons, List.length_cons] at ih ⊢
    rw [ih, entryWeight]
    ring

theorem processLinks_newUrls_length (maxDepth depth : Nat) :
    ∀ (links : List (String × String)) (st : FinderState) (cnt : Nat),
      (processLinks maxDepth depth st cnt links).2.1.length ≤ links.length := by
  intro links
  induction links with
  | nil =>
    intro st cnt
    simp [processLinks]
  | cons l rest ih =>
    intro st cnt
    obtain ⟨u, name⟩ := l
    rw [processLinks]
    by_cases hadd : (add_company st name u "discovered").2
    · rw [if_pos hadd]
      by_cases hdep : depth + 1 < maxDepth
      · rw [if_pos hdep]
        simp only [List.length_cons]
        exact Nat.succ_le_succ (ih _ _)
      · rw [if_neg hdep]
        calc (processLinks maxDepth depth (add_company st name u "discovered").1
                (cnt + 1) rest).2.1.length
            ≤ rest.length := ih _ _
          _ ≤ ((u, name) :: rest).length := by simp
    · rw [if_neg hadd]
      calc (processLinks maxDepth depth (add_company st name u "discovered").1
              cnt rest).2.1.length
          ≤ rest.length := ih _ _
        _ ≤ ((u, name) :: rest).length := by simp

theorem mem_length_le_maxBranch (pages : List (String × List (String × String))) :
    ∀ p ∈ pages, p.2.length ≤ maxBranch pages := by
  induction pages with
  | nil =>
    intro p hp
    simp at hp
  | cons q rest ih =>
    intro p hp
    rw [maxBranch, List.foldr_cons]
    rcases List.mem_cons.mp hp with h1 | h1
    · rw [h1]
      exact Nat.le_max_left _ _
    · exact Nat.le_trans (ih p h1) (Nat.le_max_right _ _)

theorem discLookup_length_le (pages : List (String × List (String × String)))
    (url : String) : (discLookup pages url).length ≤ maxBranch pages := by
  rw [discLookup]
  cases hf : pages.find? (fun p => p.1 = url) with
  | none => simp
  | some p =>
    have := mem_length_le_maxBranch pages p (List.mem_of_find?_eq_some hf)
    simpa using this

/-- Arithmetic core of the traversal termination measure: replacing one
frontier entry at depth `d < m` by at most `B` entries at depth `d + 1`
strictly decreases the queue weight. -/
theorem queueWeightStepLt (B m d k w : Nat) (hd : d < m) (hk : k ≤ B) :
    w + k * (B + 1) ^ (m - (d + 1)) < (B + 1) ^ (m - d) + w := by
  have hexp : m - d = (m - (d + 1)) + 1 := by omega
  have hXpos : 0 < (B + 1) ^ (m - (d + 1)) := Nat.pos_pow_of_pos _ (by omega)
  have h1 : k * (B + 1) ^ (m - (d + 1)) < (B + 1) ^ (m - d) := by
    rw [hexp, pow_succ]
    calc k * (B + 1) ^ (m - (d + 1))
        ≤ B * (B + 1) ^ (m - (d + 1)) := Nat.mul_le_mul hk (Nat.le_refl _)
      _ < (B + 1) * (B + 1) ^ (m - (d + 1)) :=
          mul_lt_mul_of_pos_right (Nat.lt_succ_self _) hXpos
      _ = (B + 1) ^ (m - (d + 1)) * (B + 1) := Nat.mul_comm _ _
  omega

def recDiscGo (pages : List (String × List (String × String))) (maxDepth : Nat) :
    List (String × Nat) → DiscState → DiscState
  | [], st => st
  | (url, depth) :: queue, st =>
    if hd : maxDepth ≤ depth then recDiscGo pages maxDepth queue st
    else if hc : url ∈ st.finder.checkedUrls then recDiscGo pages maxDepth queue st
    else
      let f1 : FinderState :=
        { st.finder with checkedUrls := setAdd st.finder.checkedUrls url }
      let links := discLookup pages url
      let r := processLinks maxDepth depth f1 st.count links
      recDiscGo pages maxDepth (queue ++ r.2.1.map (fun u => (u, depth + 1)))
        ⟨r.1, st.fetched ++ [url], r.2.2⟩
termination_by q st => queueWeight (maxBranch pages) maxDepth q
decreasing_by
· have : 0 < entryWeight (maxBranch pages) maxDepth (url, depth) :=
    Nat.pos_pow_of_pos _ (by omega)
  simp only [queueWeight, List.map_cons, List.sum_cons]
  omega
· have : 0 < entryWeight (maxBranch pages) maxDepth (url, depth) :=
    Nat.pos_pow_of_pos _ (by omega)
  simp only [queueWeight, List.map_cons, List.sum_cons]
  omega
· rw [queueWeight_append, queueWeight_map_const_depth]
  have hq : queueWeight (maxBranch pages) maxDepth ((url, depth) :: queue)
      = (maxBranch pages + 1) ^ (maxDepth - depth)
        + queueWeight (maxBranch pages) maxDepth queue := by
    simp [queueWeight, entryWeight]
  rw [hq]
  exact queueWeightStepLt _ _ _ _ _ (by omega)
    (Nat.le_trans (processLinks_newUrls_length _ _ _ _ _)
      (discLookup_length_le pages url))

theorem setAdd_subset (l : List String) (x : String) : l ⊆ setAdd l x := by
  intro y hy
  rw [setAdd]
  by_cases h : x ∈ l
  · rw [if_pos h]; exact hy
  · rw [if_neg h]; exact List.mem_append_left _ hy

theorem mem_setAdd_self (l : List String) (x : String) : x ∈ setAdd l x := by
  rw [setAdd]
  by_cases h : x ∈ l
  · rw [if_pos h]; exact h
  · rw [if_neg h]; exact List.mem_append_right _ (List.mem_singleton.mpr rfl)

theorem add_company_checked_mono (st : FinderState) (n u t : String) :
    st.checkedUrls ⊆ (add_company st n u t).1.checkedUrls := by
  rw [add_company]
  by_cases h : u ∈ st.dbRows.map Prod.fst
  · rw [if_pos h]
    exact fun y hy => hy
  · rw [if_neg h]
    exact setAdd_subset _ _

theorem processLinks_checked_mono (maxDepth depth : Nat) :
    ∀ (links : List (String × String)) (st : FinderState) (cnt : Nat),
      st.checkedUrls ⊆ (processLinks maxDepth depth st cnt links).1.checkedUrls := by
  intro links
  induction links with
  | nil =>
    intro st cnt
    rw [processLinks]
    exact fun y hy => hy
  | cons l rest ih =>
    intro st cnt
    obtain ⟨u, name⟩ := l
    rw [processLinks]
    by_cases hadd : (add_company st name u "discovered").2
    · rw [if_pos hadd]
      by_cases hdep : depth + 1 < maxDepth
      · rw [if_pos hdep]
        exact Set.Subset.trans (add_company_checked_mono st name u "discovered") (ih _ _)
      · rw [if_neg hdep]
        exact Set.Subset.trans (add_company_checked_mono st name u "discovered") (ih _ _)
    · rw [if_neg hadd]
      exact Set.Subset.trans (add_company_checked_mono st name u "discovered") (ih _ _)

theorem recDiscGo_fetched_nodup (pages : List (String × List (String × String)))
    (maxDepth : Nat) :
    ∀ (q : List (String × Nat)) (st : DiscState),
      st.fetched.Nodup →
      (∀ u ∈ st.fetched, u ∈ st.finder.checkedUrls) →
      (recDiscGo pages maxDepth q st).fetched.Nodup := by
  intro q st
  induction q, st using recDiscGo.induct pages maxDepth with
  | case1 st =>
    intro h1 _
    rw [recDiscGo]
    exact h1
  | case2 url depth queue st hd ih =>
    intro h1 h2
    rw [recDiscGo, dif_pos hd]
    exact ih h1 h2
  | case3 url depth queue st hd hc ih =>
    intro h1 h2
    rw [recDiscGo, dif_neg hd, dif_pos hc]
    exact ih h1 h2
  | case4 url depth queue st hd hc f1 links r ih =>
    intro h1 h2
    rw [recDiscGo, dif_neg hd, dif_neg hc]
    refine ih ?_ ?_
    · simp only [List.nodup_append, List.nodup_singleton]
      refine ⟨h1, trivial, ?_⟩
      intro a ha hb
      rw [List.mem_singleton] at hb
      subst hb
      exact hc (h2 a ha)
    · intro u hu
      rcases List.mem_append.mp hu with h3 | h3
      · exact processLinks_checked_mono _ _ _ _ _ (setAdd_subset _ _ (h2 u h3))
      · rw [List.mem_singleton] at h3
        subst h3
        exact processLinks_checked_mono _ _ _ _ _ (mem_setAdd_self _ _)

theorem recDiscGo_all_too_deep (pages : List (String × List (String × String)))
    (maxDepth : Nat) :
    ∀ (q : List (String × Nat)) (st : DiscState),
      (∀ e ∈ q, maxDepth ≤ e.2) → recDiscGo pages maxDepth q st = st := by
  intro q
  induction q with
  | nil =>
    intro st _
    rw [recDiscGo]
  | cons e tl ih =>
    intro st hall
    obtain ⟨u, d⟩ := e
    rw [recDiscGo, dif_pos (hall (u, d) (List.mem_cons_self _ _))]
    exact ih st (fun e he => hall e (List.mem_cons_of_mem _ he))

/-- Claim C6: over every link graph (cycles and multiple paths included) and
every seed list, the recursive-discovery loop never fetches the same URL
twice within one run: the trace of fetched URLs has no duplicates, because
a dequeued URL already in the run's `checked_urls` set is skipped.  (The
loop is a total well-founded recursion on the queue weight, so it also
terminates once the queue empties.) -/
theorem recursive_discovery_no_refetch
    (pages : List (String × List (String × String))) (maxDepth : Nat)
    (seeds : List String) (f0 : FinderState) :
    (recDiscGo pages maxDepth (seeds.map (fun u => (u, 0)))
        ⟨f0, [], 0⟩).fetched.Nodup :=
  recDiscGo_fetched_nodup pages maxDepth _ ⟨f0, [], 0⟩ List.nodup_nil
    (fun u hu => absurd hu (List.not_mem_nil u))

/-- Claim C7: `recursive_discovery` with `max_depth = 0` processes no
frontier entry at all — every seed is dropped by the `depth >= max_depth`
check — so it performs no fetch, leaves the finder state (including the
store rows) untouched, and reports zero new companies, for every seed list.
-/
theorem recursive_discovery_depth_zero
    (pages : List (String × List (String × String)))
    (seeds : List String) (f0 : FinderState) :
    (recDiscGo pages 0 (seeds.map (fun u => (u, 0))) ⟨f0, [], 0⟩).fetched = []
    ∧ (recDiscGo pages 0 (seeds.map (fun u => (u, 0))) ⟨f0, [], 0⟩).finder = f0
    ∧ (recDiscGo pages 0 (seeds.map (fun u => (u, 0))) ⟨f0, [], 0⟩).count = 0 := by
  have h := recDiscGo_all_too_deep pages 0 (seeds.map (fun u => (u, 0)))
    ⟨f0, [], 0⟩ (fun e _ => Nat.zero_le _)
  rw [h]
  exact ⟨rfl, rfl, rfl⟩

/-! ## Pre-crawl URL verification

Embeds `verify_urls` from `job_board_scraper/run_job_scraper.py`.  Per URL
row the function performs a single liveness check: a HEAD request, falling
back to GET when HEAD raises; the outcome of that check — a status code
from whichever request succeeded, or a `RequestException` from both — is
the input.  A status in [200, 400) keeps the row (unchanged, in order) in
`valid_urls`; any other status, or an exception, appends the URL to
`invalid_urls` and immediately runs
`UPDATE company_urls SET is_enabled=false WHERE url=%s`. -/

/-- Outcome of the single verification check for one URL. -/
inductive VerifyOutcome : Type
  | headOk (status : Nat)
  | headFailGetOk (status : Nat)
  | requestException (msg : String)
deriving DecidableEq

/-- The status code the `verify_urls` body ends up comparing, if any
request succeeded. -/
def verifyStatus : VerifyOutcome → Option Nat
  | .headOk s => some s
  | .headFailGetOk s => some s
  | .requestException _ => none

/-- The `200 <= response.status_code < 400` test, `false` when both
requests raised. -/
def verifyPasses (o : VerifyOutcome) : Bool :=
  match verifyStatus o with
  | some s => 200 ≤ s && s < 400
  | none => false

/-- `verify_urls(urls_to_verify)`: returns `(valid_urls, invalid_urls)` and,
third, the URLs disabled in the store during the loop. -/
def verify_urls {α : Type} (outcome : String → VerifyOutcome) :
    List (String × α) → List (String × α) × List String × List String
  | [] => ([], [], [])
  | row :: more =>
    let r := verify_urls outcome more
    if verifyPasses (outcome row.1)
    then (row :: r.1, r.2.1, r.2.2)
    else (r.1, row.1 :: r.2.1, row.1 :: r.2.2)

/-- Claim C10: pre-crawl verification disables a URL on a single failing
check — the disabled URLs are exactly the input URLs whose one check
returned a status outside [200, 400) or raised, with no retry counting —
the invalid list coincides with the disabled list, and the URLs that pass
are returned unchanged and in order.  In particular a single
`RequestException` (one transient network failure) or a single 5xx response
disables the URL immediately. -/
theorem verify_urls_single_check {α : Type} (outcome : String → VerifyOutcome)
    (rows : List (String × α)) (u : String) (x : α) (m : String)
    (hexc : outcome u = .requestException m) :
    verify_urls outcome rows
      = (rows.filter (fun row => verifyPasses (outcome row.1)),
         (rows.map Prod.fst).filter (fun v => ¬ verifyPasses (outcome v)),
         (rows.map Prod.fst).filter (fun v => ¬ verifyPasses (outcome v)))
    ∧ verify_urls outcome [(u, x)] = ([], [u], [u]) := by
  constructor
  · induction rows with
    | nil => rfl
    | cons row more ih =>
      rw [verify_urls, ih]
      by_cases h : verifyPasses (outcome row.1)
      · rw [if_pos h]
        simp [List.filter_cons, h]
      · rw [if_neg h]
        simp [List.filter_cons, h]
  · rw [verify_urls, verify_urls]
    rw [if_neg (by simp [verifyPasses, verifyStatus, hexc])]

/-- Concrete witness for Claim C10: one URL with a 500 HEAD response and one
whose requests raise are both disabled by their single check; a 200 URL
passes through. -/
theorem verify_urls_single_check_witness :
    ((fun v => if v = "https://boards.greenhouse.io/a"
        then VerifyOutcome.headOk 200
        else if v = "https://boards.greenhouse.io/b"
        then VerifyOutcome.headOk 500
        else VerifyOutcome.requestException "timeout") "x"
      = VerifyOutcome.requestException "timeout")
    ∧ (verify_urls (fun v => if v = "https://boards.greenhouse.io/a"
          then VerifyOutcome.headOk 200
          else if v = "https://boards.greenhouse.io/b"
          then VerifyOutcome.headOk 500
          else VerifyOutcome.requestException "timeout")
        [("https://boards.greenhouse.io/a", (1 : Nat)),
         ("https://boards.greenhouse.io/b", 2)]
        = ([("https://boards.greenhouse.io/a", (1 : Nat)),
            ("https://boards.greenhouse.io/b", 2)].filter
              (fun row => verifyPasses
                ((fun v => if v = "https://boards.greenhouse.io/a"
                    then VerifyOutcome.headOk 200
                    else if v = "https://boards.greenhouse.io/b"
                    then VerifyOutcome.headOk 500
                    else VerifyOutcome.requestException "timeout") row.1)),
           ([("https://boards.greenhouse.io/a", (1 : Nat)),
             ("https://boards.greenhouse.io/b", 2)].map Prod.fst).filter
              (fun v => ¬ verifyPasses
                ((fun v => if v = "https://boards.greenhouse.io/a"
                    then VerifyOutcome.headOk 200
                    else if v = "https://boards.greenhouse.io/b"
                    then VerifyOutcome.headOk 500
                    else VerifyOutcome.requestException "timeout") v)),
           ([("https://boards.greenhouse.io/a", (1 : Nat)),
             ("https://boards.greenhouse.io/b", 2)].map Prod.fst).filter
              (fun v => ¬ verifyPasses
                ((fun v => if v = "https://boards.greenhouse.io/a"
                    then VerifyOutcome.headOk 200
                    else if v = "https://boards.greenhouse.io/b"
                    then VerifyOutcome.headOk 500
                    else VerifyOutcome.requestException "timeout") v)))
        ∧ verify_urls (fun v => if v = "https://boards.greenhouse.io/a"
            then VerifyOutcome.headOk 200
            else if v = "https://boards.greenhouse.io/b"
            then VerifyOutcome.headOk 500
            else VerifyOutcome.requestException "timeout")
            [("x", (3 : Nat))] = ([], ["x"], ["x"])) :=
  ⟨by decide,
    verify_urls_single_check
      (fun v => if v = "https://boards.greenhouse.io/a"
        then VerifyOutcome.headOk 200
        else if v = "https://boards.greenhouse.io/b"
        then VerifyOutcome.headOk 500
        else VerifyOutcome.requestException "timeout")
      [("https://boards.greenhouse.io/a", (1 : Nat)),
       ("https://boards.greenhouse.io/b", 2)]
      "x" 3 "timeout" (by decide)⟩

/-! ## Top-level harvest run: exit behaviour

Embeds the `__main__` block of `job_board_scraper/run_job_scraper.py`.
`initialize_database()` and the `DatabaseManager` construction run before
the `try` block, so an exception there is unhandled and the interpreter
exits non-zero (modelled as exit code 1).  Inside the `try` block: the
URL query (`DatabaseManager.execute_query` re-raises database errors), the
`sys.exit(0)` with a warning when the query returns no rows, `verify_urls`,
the `sys.exit(0)` with a warning when no URL survives verification,
chunking via `get_url_chunks`, and the spider runs.  The `except Exception`
handler at the bottom only logs and closes the connection — it does not
re-raise — after which the script falls off the end, so the interpreter
exits 0.  (`sys.exit(0)` raises `SystemExit`, which `except Exception`
does not catch.)  The result is the pair (exit code, whether a
nothing-to-process warning was logged). -/

/-- A Python call that either returns normally or raises an exception. -/
inductive PyResult (α : Type) : Type
  | ok (a : α)
  | exc (msg : String)
deriving DecidableEq

/-- The `__main__` control flow of `run_job_scraper.py`, with the outcome of
each effectful step (initialization, URL query, verification, crawling)
supplied as input. -/
def scraper_main {α : Type} (chunkSize : Nat)
    (initRes : PyResult Unit)
    (queryRes : PyResult (List (String × α)))
    (verifyRes : PyResult (List (String × α) × List String))
    (crawlRes : PyResult Unit) : Nat × Bool :=
  match initRes with
  | .exc _ => (1, false)
  | .ok _ =>
    match queryRes with
    | .exc _ => (0, false)
    | .ok urls =>
      if urls.isEmpty then (0, true)
      else
        match verifyRes with
        | .exc _ => (0, false)
        | .ok vr =>
          if vr.1.isEmpty then (0, true)
          else
            let chunks := get_url_chunks vr.1 chunkSize
            if 0 < chunks.length then
              match crawlRes with
              | .exc _ => (0, false)
              | .ok _ => (0, false)
            else (0, true)

/-- Counterexample to Claim C8 as stated: an unexpected error in the
top-level run (here, the URL query raising inside the `try` block) does not
propagate — the `except Exception` handler only logs — and the process
terminates with exit status 0, not a non-zero status. -/
theorem scraper_main_swallows_run_errors :
    (scraper_main (α := Nat) 1 (.ok ()) (.exc "connection refused")
        (.ok ([], [])) (.ok ())).1 = 0 :=
  rfl

/-- Claim C8 (amended): when there is nothing to process — the enabled-URL
query returns no rows, or no URL survives verification — the process exits
with status 0 after a warning.  An unexpected error raised inside the main
`try` block (query, verification or crawling) is caught, logged, and the
process still exits 0; only an exception during initialization, before the
`try` block, propagates and terminates the process with a non-zero status.
-/
theorem scraper_main_exit_behavior {α : Type} (chunkSize : Nat)
    (initMsg : String)
    (queryRes : PyResult (List (String × α)))
    (verifyRes : PyResult (List (String × α) × List String))
    (crawlRes : PyResult Unit)
    (urls : List (String × α)) (invalid : List String)
    (hne : urls.isEmpty = false) :
    (scraper_main chunkSize (.exc initMsg) queryRes verifyRes crawlRes).1 = 1
    ∧ (scraper_main chunkSize (.ok ()) queryRes verifyRes crawlRes).1 = 0
    ∧ scraper_main chunkSize (.ok ()) (.ok ([] : List (String × α)))
        verifyRes crawlRes = (0, true)
    ∧ scraper_main chunkSize (.ok ()) (.ok urls) (.ok ([], invalid)) crawlRes
        = (0, true) := by
  refine ⟨rfl, ?_, rfl, ?_⟩
  · cases queryRes with
    | exc m1 => rfl
    | ok us =>
      by_cases h1 : us.isEmpty
      · simp [scraper_main, h1]
      · cases verifyRes with
        | exc m2 => simp [scraper_main, h1]
        | ok vr =>
          by_cases h2 : vr.1.isEmpty
          · simp [scraper_main, h1, h2]
          · by_cases h3 : 0 < (get_url_chunks vr.1 chunkSize).length
            · cases crawlRes with
              | exc m3 => simp [scraper_main, h1, h2, h3]
              | ok u => simp [scraper_main, h1, h2, h3]
            · simp [scraper_main, h1, h2, h3]
  · simp [scraper_main, hne]

/-- Concrete witness for the amended Claim C8. -/
theorem scraper_main_exit_behavior_witness :
    (([("https://boards.greenhouse.io/acme", (0 : Nat))] :
        List (String × Nat)).isEmpty = false)
    ∧ ((scraper_main 1 (.exc "database unreachable")
          (.exc "query failed" : PyResult (List (String × Nat)))
          (.ok ([], [])) (.ok ())).1 = 1
      ∧ (scraper_main 1 (.ok ())
          (.exc "query failed" : PyResult (List (String × Nat)))
          (.ok ([], [])) (.ok ())).1 = 0
      ∧ scraper_main 1 (.ok ()) (.ok ([] : List (String × Nat)))
          (.ok ([], [])) (.ok ()) = (0, true)
      ∧ scraper_main 1 (.ok ())
          (.ok [("https://boards.greenhouse.io/acme", (0 : Nat))])
          (.ok ([], [])) (.ok ()) = (0, true)) :=
  ⟨by decide,
    scraper_main_exit_behavior 1 "database unreachable"
      (.exc "query failed" : PyResult (List (String × Nat)))
      (.ok ([], [])) (.ok ())
      [("https://boards.greenhouse.io/acme", (0 : Nat))] [] (by decide)⟩

/-! ## Record-id generation: the salted hashids encoder

`determine_row_id` in
`job_board_scraper/job_board_scraper/spiders/greenhouse_job_departments_spider.py`
returns `util.hash_ids.encode(self.spider_id, i, self.url_id,
int(self.created_at))`, where `hash_ids` is the `Hashids` object built in
`greenhouse_scraper/greenhouse_scraper/utils/general.py` with
`salt=os.environ.get('HASHIDS_SALT')` and
`alphabet="abcdefghijklmnopqrstuvwxyz1234567890"`, `min_length` left at its
default 0.  The `Hashids` class itself comes from the `hashids` dependency
(hashids-python 1.3); its algorithm — the salt-driven consistent shuffle
`_reorder`, the constructor's separator/guard carving, per-value base-N
hashing `_hash`, and `_encode` — is embedded below exactly as the library
implements it for `min_length = 0` (so the guard-padding branch, which only
fires when the output is shorter than `min_length`, never runs).  The salt
is the per-deployment parameter and stays universally quantified.  The
embedding was checked against the library's published test vectors (e.g.
with the default alphabet, empty salt encodes 12345 to "j0gW", and salt
"this is my salt" encodes (683, 94108, 123, 5) to "aBMswoO2UB3Sj").

To settle injectivity we also implement the library's decoder for the same
configuration and prove the decode-of-encode round trip, from which
injectivity of `determine_row_id` on its four inputs follows. -/

/-- Swap of two list positions, as Python's
`string[i], string[j] = string[j], string[i]`. -/
def listSwap (l : List Char) (i j : Nat) : List Char :=
  (l.set i (l.getD j ' ')).set j (l.getD i ' ')

/-- The loop of the library's `_reorder(string, salt)`: `k` counts the
remaining iterations and equals the Python loop variable `i`, which runs
from `len(string) - 1` down to 1; `idx` and `isum` are `index` and
`integer_sum`. -/
def reorderGo (salt : List Char) : List Char → Nat → Nat → Nat → List Char
  | s, 0, _, _ => s
  | s, k+1, idx, isum =>
    let integer := (salt.getD idx ' ').toNat
    let isum2 := isum + integer
    let j := (integer + idx + isum2) % (k+1)
    let s2 := listSwap s (k+1) j
    reorderGo salt s2 k ((idx + 1) % salt.length) isum2

/-- `_reorder(string, salt)`: the salt-driven consistent shuffle; a no-op
for an empty salt. -/
def reorder (s salt : List Char) : List Char :=
  if salt.length = 0 then s else reorderGo salt s (s.length - 1) 0 0

/-- `int(math.ceil(float(n) / 3.5))` — the constructor's
`min_separators` computation (ratio 3.5, so the ceiling of `2n/7`;
exact for the list lengths involved). -/
def hashidsSepDiv (n : Nat) : Nat := (2 * n + 6) / 7

/-- `int(math.ceil(float(n) / 12))` — the constructor's guard count. -/
def hashidsGuardDiv (n : Nat) : Nat := (n + 11) / 12

/-- The library's candidate separator characters `'cfhistuCFHISTU'`. -/
def hashidsSepCandidates : List Char :=
  ['c','f','h','i','s','t','u','C','F','H','I','S','T','U']

/-- The `Hashids.__init__` computation for `min_length = 0`: intersect the
separator candidates with the alphabet, drop duplicates and separators from
the alphabet, shuffle the separators, move alphabet characters into the
separators until the 3.5 ratio holds, shuffle the alphabet, and carve the
guards off the front.  Returns `(separators, alphabet, guards)`. -/
def hashidsInit (raw salt : List Char) : List Char × List Char × List Char :=
  let sepsBase := hashidsSepCandidates.filter (fun c => raw.contains c)
  let alpha0 := (raw.enum.filter
    (fun p => raw.indexOf p.2 == p.1 && !(sepsBase.contains p.2))).map Prod.snd
  let lenA := alpha0.length
  let seps1 := reorder sepsBase salt
  let minSeps0 := hashidsSepDiv lenA
  let p :=
    if seps1.isEmpty || seps1.length < minSeps0 then
      let minSeps := if minSeps0 = 1 then 2 else minSeps0
      if seps1.length < minSeps then
        (seps1 ++ alpha0.take (minSeps - seps1.length),
         alpha0.drop (minSeps - seps1.length))
      else (seps1, alpha0)
    else (seps1, alpha0)
  let alpha2 := reorder p.2 salt
  let numGuards := hashidsGuardDiv alpha2.length
  if alpha2.length < 3 then
    (p.1.drop numGuards, alpha2, p.1.take numGuards)
  else
    (p.1, alpha2.drop numGuards, alpha2.take numGuards)

/-- The library's `_hash(number, alphabet)`: the base-`len(alphabet)` digit
string of `number`, most significant digit first, built from alphabet
characters.  (For an alphabet shorter than 2 — which `__init__` can never
produce — the Python loop would not terminate, so that degenerate case
returns the single low digit.) -/
def hashNum (a : List Char) (n : Nat) : List Char :=
  if h : 2 ≤ a.length ∧ a.length ≤ n then
    hashNum a (n / a.length) ++ [a.getD (n % a.length) ' ']
  else [a.getD (n % a.length) ' ']
termination_by n
decreasing_by
  exact Nat.div_lt_self (by omega) (by omega)

/-- The library's `_unhash(hashed, alphabet)`. -/
def unhashNum (hashed a : List Char) : Nat :=
  hashed.foldl (fun num c => num * a.length + a.indexOf c) 0

/-- `values_hash = sum(x % (i + 100) for i, x in enumerate(values))`. -/
def hashidsValuesHash (values : List Nat) : Nat :=
  (values.enum.map (fun p => p.2 % (p.1 + 100))).sum

/-- The `for i, value in enumerate(values)` loop of `_encode`: reshuffle
the alphabet with `(lottery + salt + alphabet)[:len_alphabet]`, hash the
value, and append a separator chosen from the value, the hash's first
character and the position.  Every value gets a trailing separator; the
caller cuts the last one off. -/
def hashidsEncodeBody (salt seps : List Char) (lottery : Char) (lenA : Nat) :
    List Char → Nat → List Nat → List Char
  | _, _, [] => []
  | a, i, v :: vs =>
    let aSalt := ((lottery :: salt) ++ a).take lenA
    let a2 := reorder a aSalt
    let lastH := hashNum a2 v
    let v2 := v % ((lastH.headD ' ').toNat + i)
    let sep := seps.getD (v2 % seps.length) ' '
    lastH ++ sep :: hashidsEncodeBody salt seps lottery lenA a2 (i + 1) vs

/-- `Hashids.encode(*values)` for `min_length = 0`: empty output for no
values; otherwise the lottery character followed by the hashed values
joined by separators (`encoded[:-1]` cuts the final separator). -/
def hashidsEncodeRaw (raw salt : List Char) (values : List Nat) : List Char :=
  if values.isEmpty then []
  else
    let p := hashidsInit raw salt
    let seps := p.1
    let alpha := p.2.1
    let lenA := alpha.length
    let vh := hashidsValuesHash values
    let lottery := alpha.getD (vh % lenA) ' '
    (lottery :: hashidsEncodeBody salt seps lottery lenA alpha 0 values).dropLast

/-- The library's `_split(string, splitters)` used by the decoder. -/
def splitSeps (seps : List Char) : List Char → List (List Char)
  | [] => [[]]
  | c :: rest =>
    if seps.contains c then [] :: splitSeps seps rest
    else
      match splitSeps seps rest with
      | [] => [[c]]
      | p :: ps => (c :: p) :: ps

/-- The decoder's per-part loop: replay the alphabet shuffles of the
encoder and unhash each part. -/
def hashidsDecodeLoop (salt : List Char) (lottery : Char) (lenA : Nat) :
    List Char → List (List Char) → List Nat
  | _, [] => []
  | a, part :: ps =>
    let aSalt := ((lottery :: salt) ++ a).take lenA
    let a2 := reorder a aSalt
    unhashNum part a2 :: hashidsDecodeLoop salt lottery lenA a2 ps

/-- `Hashids.decode` for `min_length = 0` (no guards appear in the hashid
then): the first character is the lottery, the rest splits at separators.
-/
def hashidsDecodeRaw (raw salt : List Char) (h : List Char) : List Nat :=
  match h with
  | [] => []
  | lottery :: rest =>
    let p := hashidsInit raw salt
    hashidsDecodeLoop salt lottery p.2.1.length p.2.1 (splitSeps p.1 rest)

theorem count_set_add (l : List Char) :
    ∀ (n : Nat) (b c : Char), n < l.length →
      (l.set n b).count c + (if l.getD n ' ' = c then 1 else 0)
        = l.count c + (if b = c then 1 else 0) := by
  induction l with
  | nil =>
    intro n b c hn
    simp at hn
  | cons x xs ih =>
    intro n b c hn
    cases n with
    | zero =>
      simp only [List.set_cons_zero, List.getD_cons_zero, List.count_cons,
        beq_iff_eq]
      omega
    | succ m =>
      have hm : m < xs.length := by simpa using hn
      have hih := ih m b c hm
      simp only [List.set_cons_succ, List.getD_cons_succ, List.count_cons,
        beq_iff_eq]
      omega

theorem listSwap_perm (l : List Char) (i j : Nat) (hi : i < l.length)
    (hj : j < l.length) : (listSwap l i j).Perm l := by
  rw [List.perm_iff_count]
  intro c
  have hlen1 : (l.set i (l.getD j ' ')).length = l.length := by
    rw [List.length_set]
  have h1 := count_set_add l i (l.getD j ' ') c hi
  have h2 := count_set_add (l.set i (l.getD j ' ')) j (l.getD i ' ') c
    (by rw [hlen1]; exact hj)
  rw [listSwap]
  by_cases hij : i = j
  · subst hij
    have hgd : (l.set i (l.getD i ' ')).getD i ' ' = l.getD i ' ' := by
      rw [List.getD_eq_getElem _ _ (by rw [hlen1]; exact hi),
        List.getElem_set_self]
    rw [hgd] at h2
    omega
  · have hgd : (l.set i (l.getD j ' ')).getD j ' ' = l.getD j ' ' := by
      rw [List.getD_eq_getElem _ _ (by rw [hlen1]; exact hj),
        List.getElem_set_ne (by omega)]
      exact (List.getD_eq_getElem _ _ hj).symm
    rw [hgd] at h2
    omega

theorem reorderGo_perm (salt : List Char) :
    ∀ (k : Nat) (s : List Char) (idx isum : Nat), k < s.length →
      (reorderGo salt s k idx isum).Perm s := by
  intro k
  induction k with
  | zero =>
    intro s idx isum _
    rw [reorderGo]
  | succ k ih =>
    intro s idx isum hk
    rw [reorderGo]
    have hj : ((salt.getD idx ' ').toNat + idx
        + (isum + (salt.getD idx ' ').toNat)) % (k + 1) < k + 1 :=
      Nat.mod_lt _ (by omega)
    have hswap := listSwap_perm s (k + 1)
      (((salt.getD idx ' ').toNat + idx
        + (isum + (salt.getD idx ' ').toNat)) % (k + 1)) hk (by omega)
    have hlen : (listSwap s (k + 1)
        (((salt.getD idx ' ').toNat + idx
          + (isum + (salt.getD idx ' ').toNat)) % (k + 1))).length
        = s.length := hswap.length_eq
    exact List.Perm.trans (ih _ _ _ (by omega)) hswap

theorem reorder_perm (s salt : List Char) : (reorder s salt).Perm s := by
  rw [reorder]
  by_cases hsalt : salt.length = 0
  · rw [if_pos hsalt]
  · rw [if_neg hsalt]
    cases s with
    | nil => exact List.Perm.refl _
    | cons x xs =>
      exact reorderGo_perm salt _ _ _ _ (by simp)

theorem reorder_length (s salt : List Char) :
    (reorder s salt).length = s.length :=
  (reorder_perm s salt).length_eq

theorem reorder_nodup (s salt : List Char) (h : s.Nodup) :
    (reorder s salt).Nodup :=
  (reorder_perm s salt).nodup_iff.mpr h

theorem reorder_mem (s salt : List Char) (c : Char) (h : c ∈ reorder s salt) :
    c ∈ s :=
  (reorder_perm s salt).subset h

theorem hashNum_ne_nil (a : List Char) (n : Nat) : hashNum a n ≠ [] := by
  induction n using hashNum.induct a with
  | case1 n h ih =>
    rw [hashNum, dif_pos h]
    simp
  | case2 n h =>
    rw [hashNum, dif_neg h]
    simp

theorem hashNum_mem (a : List Char) (ha : 0 < a.length) (n : Nat) :
    ∀ c ∈ hashNum a n, c ∈ a := by
  induction n using hashNum.induct a with
  | case1 n h ih =>
    rw [hashNum, dif_pos h]
    intro c hc
    rcases List.mem_append.mp hc with h1 | h1
    · exact ih c h1
    · rw [List.mem_singleton] at h1
      subst h1
      rw [List.getD_eq_getElem _ _ (Nat.mod_lt _ ha)]
      exact List.getElem_mem _
  | case2 n h =>
    rw [hashNum, dif_neg h]
    intro c hc
    rw [List.mem_singleton] at hc
    subst hc
    rw [List.getD_eq_getElem _ _ (Nat.mod_lt _ ha)]
    exact List.getElem_mem _

theorem unhashNum_append_last (xs : List Char) (d : Char) (a : List Char) :
    unhashNum (xs ++ [d]) a = unhashNum xs a * a.length + a.indexOf d := by
  rw [unhashNum, unhashNum, List.foldl_append]
  rfl

theorem unhashNum_hashNum (a : List Char) (hnd : a.Nodup) (h2 : 2 ≤ a.length)
    (n : Nat) : unhashNum (hashNum a n) a = n := by
  induction n using hashNum.induct a with
  | case1 n h ih =>
    rw [hashNum, dif_pos h, unhashNum_append_last, ih]
    have hmod : n % a.length < a.length := Nat.mod_lt _ (by omega)
    rw [List.getD_eq_getElem _ _ hmod, List.indexOf_getElem hnd _ hmod]
    rw [Nat.mul_comm]
    exact Nat.div_add_mod n a.length
  | case2 n h =>
    rw [hashNum, dif_neg h]
    have hn : n < a.length := by omega
    have hmod : n % a.length = n := Nat.mod_eq_of_lt hn
    show 0 * a.length + a.indexOf (a.getD (n % a.length) ' ') = n
    rw [hmod, List.getD_eq_getElem _ _ hn, List.indexOf_getElem hnd _ hn]
    omega

theorem splitSeps_ne_nil (seps : List Char) (l : List Char) :
    splitSeps seps l ≠ [] := by
  induction l with
  | nil => simp [splitSeps]
  | cons c rest ih =>
    rw [splitSeps]
    by_cases h : seps.contains c
    · rw [if_pos h]
      simp
    · rw [if_neg h]
      cases hs : splitSeps seps rest with
      | nil => simp
      | cons p ps => simp

theorem splitSeps_sepfree (seps : List Char) (p : List Char)
    (hp : ∀ c ∈ p, seps.contains c = false) :
    splitSeps seps p = [p] := by
  induction p with
  | nil => rfl
  | cons c rest ih =>
    rw [splitSeps, if_neg (by rw [hp c (List.mem_cons_self _ _)]; simp)]
    rw [ih (fun d hd => hp d (List.mem_cons_of_mem _ hd))]

theorem splitSeps_append_sep (seps : List Char) (p : List Char) (s : Char)
    (rest : List Char) (hp : ∀ c ∈ p, seps.contains c = false)
    (hs : seps.contains s = true) :
    splitSeps seps (p ++ s :: rest) = p :: splitSeps seps rest := by
  induction p with
  | nil =>
    rw [List.nil_append, splitSeps, if_pos hs]
  | cons c ptl ih =>
    rw [List.cons_append, splitSeps,
      if_neg (by rw [hp c (List.mem_cons_self _ _)]; simp)]
    rw [ih (fun d hd => hp d (List.mem_cons_of_mem _ hd))]

theorem contains_true_of_mem (l : List Char) (c : Char) (h : c ∈ l) :
    l.contains c = true := by
  exact List.elem_eq_true_of_mem h

theorem hashidsEncodeBody_ne_nil (salt seps : List Char) (lottery : Char)
    (lenA : Nat) (a : List Char) (i : Nat) (v : Nat) (vs : List Nat) :
    hashidsEncodeBody salt seps lottery lenA a i (v :: vs) ≠ [] := by
  rw [hashidsEncodeBody]
  simp

theorem decodeLoop_encodeBody (salt seps : List Char) (lottery : Char)
    (lenA : Nat) (hseps : seps ≠ []) :
    ∀ (vs : List Nat) (a : List Char) (i : Nat),
      vs ≠ [] → a.Nodup → 2 ≤ a.length →
      (∀ c ∈ a, seps.contains c = false) →
      hashidsDecodeLoop salt lottery lenA a
        (splitSeps seps
          ((hashidsEncodeBody salt seps lottery lenA a i vs).dropLast))
        = vs := by
  intro vs
  induction vs with
  | nil =>
    intro a i hne _ _ _
    exact absurd rfl hne
  | cons v vs ih =>
    intro a i _ hnd h2 hsf
    have hand2 : (reorder a (((lottery :: salt) ++ a).take lenA)).Nodup :=
      reorder_nodup _ _ hnd
    have hlen2 : 2 ≤ (reorder a (((lottery :: salt) ++ a).take lenA)).length := by
      rw [reorder_length]
      exact h2
    have hsf2 : ∀ c ∈ reorder a (((lottery :: salt) ++ a).take lenA),
        seps.contains c = false :=
      fun c hc => hsf c (reorder_mem _ _ c hc)
    have hhashsf : ∀ c ∈ hashNum (reorder a (((lottery :: salt) ++ a).take lenA)) v,
        seps.contains c = false :=
      fun c hc => hsf2 c (hashNum_mem _ (by omega) v c hc)
    rw [hashidsEncodeBody]
    cases vs with
    | nil =>
      rw [hashidsEncodeBody]
      rw [List.dropLast_concat]
      rw [splitSeps_sepfree seps _ hhashsf]
      rw [hashidsDecodeLoop, hashidsDecodeLoop]
      rw [unhashNum_hashNum _ hand2 hlen2]
    | cons w ws =>
      have hrest := hashidsEncodeBody_ne_nil salt seps lottery lenA
        (reorder a (((lottery :: salt) ++ a).take lenA)) (i + 1) w ws
      rw [List.dropLast_append_of_ne_nil _ (by simp)]
      rw [List.dropLast_cons_of_ne_nil hrest]
      have hsepmem : seps.contains
          (seps.getD ((v % (((hashNum (reorder a (((lottery :: salt) ++ a).take lenA)) v).headD ' ').toNat + i))
            % seps.length) ' ') = true := by
        have hlen : 0 < seps.length := List.length_pos.mpr hseps
        rw [List.getD_eq_getElem _ _ (Nat.mod_lt _ hlen)]
        exact contains_true_of_mem _ _ (List.getElem_mem _)
      rw [splitSeps_append_sep seps _ _ _ hhashsf hsepmem]
      rw [hashidsDecodeLoop]
      rw [unhashNum_hashNum _ hand2 hlen2]
      rw [ih _ (i + 1) (by simp) hand2 hlen2 hsf2]

/-- The alphabet the repository passes to `Hashids` in
`greenhouse_scraper/greenhouse_scraper/utils/general.py`:
`"abcdefghijklmnopqrstuvwxyz1234567890"`. -/
def hashidsRepoAlphabet : List Char :=
  ['a','b','c','d','e','f','g','h','i','j','k','l','m','n','o','p','q','r',
   's','t','u','v','w','x','y','z','1','2','3','4','5','6','7','8','9','0']

/-- The separator base the constructor computes for the repository's
alphabet: the candidates present in it. -/
def repoSepsBase : List Char := ['c','f','h','i','s','t','u']

/-- The repository's alphabet with the separator characters removed
(29 characters), as computed by the constructor. -/
def repoAlpha29 : List Char :=
  ['a','b','d','e','g','j','k','l','m','n','o','p','q','r','v','w','x','y',
   'z','1','2','3','4','5','6','7','8','9','0']

/-- The 27 alphabet characters left after the constructor moves
`'a'` and `'b'` into the separators to reach the 3.5 ratio. -/
def repoAlpha27 : List Char :=
  ['d','e','g','j','k','l','m','n','o','p','q','r','v','w','x','y',
   'z','1','2','3','4','5','6','7','8','9','0']

/-- Normal form of the constructor's output for the repository's alphabet
and an arbitrary salt: 9 separators (the shuffled 7 base separators plus
`'a'`, `'b'`), a 24-character working alphabet, and 3 guards. -/
theorem hashidsInit_repo (salt : List Char) :
    hashidsInit hashidsRepoAlphabet salt
      = (reorder repoSepsBase salt ++ ['a', 'b'],
         (reorder repoAlpha27 salt).drop 3,
         (reorder repoAlpha27 salt).take 3) := by
  have hsep : hashidsSepCandidates.filter
      (fun c => hashidsRepoAlphabet.contains c) = repoSepsBase := by decide
  have halpha : (hashidsRepoAlphabet.enum.filter
      (fun p => hashidsRepoAlphabet.indexOf p.2 == p.1
        && !(repoSepsBase.contains p.2))).map Prod.snd = repoAlpha29 := by
    decide
  have hlen7 : (reorder repoSepsBase salt).length = 7 := by
    rw [reorder_length]
    rfl
  have h29 : repoAlpha29.length = 29 := rfl
  have hdrop2 : repoAlpha29.drop 2 = repoAlpha27 := rfl
  have htake2 : repoAlpha29.take 2 = ['a', 'b'] := rfl
  have hlen27 : (reorder repoAlpha27 salt).length = 27 := by
    rw [reorder_length]
    rfl
  simp only [hashidsInit, hsep, halpha, h29]
  rw [hlen7]
  norm_num [hashidsSepDiv]
  rw [hdrop2, htake2, hlen27]
  norm_num [hashidsGuardDiv]

theorem repoS_ne_nil (salt : List Char) :
    reorder repoSepsBase salt ++ ['a', 'b'] ≠ [] := by
  simp

theorem repoA_nodup (salt : List Char) :
    ((reorder repoAlpha27 salt).drop 3).Nodup :=
  List.Nodup.sublist (List.drop_sublist 3 _)
    (reorder_nodup _ _ (by decide))

theorem repoA_length (salt : List Char) :
    ((reorder repoAlpha27 salt).drop 3).length = 24 := by
  rw [List.length_drop, reorder_length]
  rfl

theorem repoA_sepfree (salt : List Char) :
    ∀ c ∈ (reorder repoAlpha27 salt).drop 3,
      (reorder repoSepsBase salt ++ ['a', 'b']).contains c = false := by
  intro c hc
  have hc27 : c ∈ repoAlpha27 :=
    reorder_mem _ _ c (List.Sublist.subset (List.drop_sublist 3 _) hc)
  by_contra hcon
  have htrue : (reorder repoSepsBase salt ++ ['a', 'b']).contains c = true := by
    cases h : (reorder repoSepsBase salt ++ ['a', 'b']).contains c
    · exact absurd h hcon
    · rfl
  have hmem : c ∈ reorder repoSepsBase salt ++ ['a', 'b'] :=
    List.mem_of_elem_eq_true htrue
  rcases List.mem_append.mp hmem with h1 | h1
  · have : c ∈ repoSepsBase := reorder_mem _ _ c h1
    have hforb : ∀ d ∈ repoAlpha27, d ∉ repoSepsBase := by decide
    exact hforb c hc27 this
  · have hforb : ∀ d ∈ repoAlpha27, d ∉ (['a', 'b'] : List Char) := by decide
    exact hforb c hc27 h1

/-- Round trip: for the repository's hashids configuration, decoding an
encoded non-empty value list recovers the values — the encoder is
injective. -/
theorem hashids_decode_encode (salt : List Char) (values : List Nat)
    (hv : values ≠ []) :
    hashidsDecodeRaw hashidsRepoAlphabet salt
      (hashidsEncodeRaw hashidsRepoAlphabet salt values) = values := by
  obtain ⟨v, vs, rfl⟩ := List.exists_cons_of_ne_nil hv
  rw [hashidsEncodeRaw]
  rw [if_neg (by simp)]
  simp only [hashidsInit_repo]
  have hbody := hashidsEncodeBody_ne_nil salt
    (reorder repoSepsBase salt ++ ['a', 'b'])
    (((reorder repoAlpha27 salt).drop 3).getD
      (hashidsValuesHash (v :: vs) % ((reorder repoAlpha27 salt).drop 3).length) ' ')
    ((reorder repoAlpha27 salt).drop 3).length
    ((reorder repoAlpha27 salt).drop 3) 0 v vs
  rw [List.dropLast_cons_of_ne_nil hbody]
  rw [hashidsDecodeRaw]
  simp only [hashidsInit_repo]
  exact decodeLoop_encodeBody salt _ _ _ (repoS_ne_nil salt) (v :: vs) _ 0
    (by simp) (repoA_nodup salt) (by rw [repoA_length]; omega)
    (repoA_sepfree salt)

/-- `util.hash_ids.encode(...)` as the spiders call it: the `Hashids`
object of `greenhouse_scraper/greenhouse_scraper/utils/general.py`,
parameterised by the deployment salt. -/
def hash_ids_encode (salt : List Char) (values : List Nat) : List Char :=
  hashidsEncodeRaw hashidsRepoAlphabet salt values

/-- `GreenhouseJobDepartmentsSpider.determine_row_id(self, i)`:
`hash_ids.encode(self.spider_id, i, self.url_id, int(self.created_at))`. -/
def determine_row_id (salt : List Char) (spiderId urlId createdAt i : Nat) :
    List Char :=
  hash_ids_encode salt [spiderId, i, urlId, createdAt]

/-- Claim C5: record-id generation is deterministic and injective on its
inputs — for every deployment salt and every pair of
`(spider_id, sequence_index, url_id, created_at)` tuples of naturals, the
ids agree exactly when the tuples agree componentwise: equal tuples always
produce the same id, and tuples differing in any component produce
different ids. -/
theorem determine_row_id_deterministic_injective (salt : List Char)
    (s1 u1 t1 i1 s2 u2 t2 i2 : Nat) :
    determine_row_id salt s1 u1 t1 i1 = determine_row_id salt s2 u2 t2 i2
      ↔ s1 = s2 ∧ i1 = i2 ∧ u1 = u2 ∧ t1 = t2 := by
  constructor
  · intro h
    have hd := congrArg (hashidsDecodeRaw hashidsRepoAlphabet salt) h
    rw [determine_row_id, determine_row_id, hash_ids_encode, hash_ids_encode] at hd
    rw [hashids_decode_encode salt _ (by simp),
      hashids_decode_encode salt _ (by simp)] at hd
    simpa using hd
  · rintro ⟨rfl, rfl, rfl, rfl⟩
    rfl

/-! ## New-format outline parser: the sequence key

`GreenhouseJobsOutlineSpider.parse_job_boards_prefix` computes the
per-record sequence index passed to `determine_row_id` as
`int(str(i * 100) + str(j * 100) + str(self.page_number))` — decimal string
concatenation of the department index times 100, the opening index times
100, and the page number, re-read as an integer. -/

/-- Decimal digits of a natural number, most significant first, with a fuel
argument that makes the recursion structural (`n` itself is always enough
fuel).  Mirrors Python's `str` on a non-negative integer. -/
def decDigitsGo : Nat → Nat → List Nat
  | 0, n => [n]
  | fuel + 1, n => if n < 10 then [n] else decDigitsGo fuel (n / 10) ++ [n % 10]

/-- Decimal digit list of `n`, as `str(n)`. -/
def decDigits (n : Nat) : List Nat := decDigitsGo n n

/-- Decimal re-reading of a digit list, as Python's `int` on a digit
string (leading zeros are harmless). -/
def digitsVal (ds : List Nat) : Nat := ds.foldl (fun acc d => acc * 10 + d) 0

/-- `int(str(i * 100) + str(j * 100) + str(page_number))` from
`parse_job_boards_prefix`. -/
def job_boards_sequence_key (i j pageNumber : Nat) : Nat :=
  digitsVal (decDigits (i * 100) ++ decDigits (j * 100) ++ decDigits pageNumber)

/-- Claim C9: the sequence key of the new-format outline parser is not
injective — department index 1 with opening index 0 and department index 0
with opening index 10, both on page 1, yield the same key 10001
(`"100" + "0" + "1"` versus `"0" + "1000" + "1"`), so the two distinct job
rows of one spider run (same salt, spider id, url id and timestamp) receive
the same record id. -/
theorem job_boards_sequence_key_collision :
    job_boards_sequence_key 1 0 1 = job_boards_sequence_key 0 10 1
    ∧ ((1, 0, 1) : Nat × Nat × Nat) ≠ (0, 10, 1)
    ∧ job_boards_sequence_key 1 0 1 = 10001
    ∧ ∀ (salt : List Char) (spiderId urlId createdAt : Nat),
        determine_row_id salt spiderId urlId createdAt
            (job_boards_sequence_key 1 0 1)
          = determine_row_id salt spiderId urlId createdAt
            (job_boards_sequence_key 0 10 1) := by
  refine ⟨by decide, by decide, by decide, ?_⟩
  intro salt spiderId urlId createdAt
  have h : job_boards_sequence_key 1 0 1 = job_boards_sequence_key 0 10 1 := by
    decide
  rw [h]
